import Mathlib

/-!
Verification of the Identity & Conversation Resolution Engine of the
wallet-messaging repository: the SQL migration's identity function, row-level
policies and conversation triggers, and the client-side reconciliation logic of
the Messages component.  SQL text values are modelled as `List Char`; client
strings as `String`; timestamps (epoch milliseconds / SQL timestamps) as `Int`.
-/

namespace KrakenMessaging

/-! ## Identity Resolver (`get_user_wallet_address`) -/

/-- An authenticated principal as the database auth layer exposes it:
`auth.email()` is `NULL` for principals without an email credential, and
`auth.uid()` is the principal's unique id; `uid` holds its text rendering
(the `::text` cast in the source). -/
structure Principal where
  email : Option (List Char)
  uid : List Char
deriving DecidableEq

/-- The reserved synthetic-email domain suffix `@kraken.web3`. -/
def krakenSuffix : List Char := "@kraken.web3".toList

/-- SQL `e LIKE '%@kraken.web3'`: the pattern has a single leading `%`
wildcard and no other wildcard characters, so it holds exactly when `e`
ends with the reserved suffix. -/
def likeKrakenWeb3 (e : List Char) : Bool :=
  decide (e.drop (e.length - krakenSuffix.length) = krakenSuffix)

/-- SQL `split_part(e, '@', 1)`: the segment of `e` before the first `'@'`
(all of `e` when no `'@'` occurs). -/
def splitPartAt1 (e : List Char) : List Char :=
  e.takeWhile (fun c => c != '@')

/-- `get_user_wallet_address()` from the migration:
`CASE WHEN auth.email() LIKE '%@kraken.web3' THEN split_part(auth.email(), '@', 1)
ELSE auth.uid()::text END`.  When `auth.email()` is `NULL` the `LIKE`
comparison is `NULL`, so the `CASE` falls through to the `ELSE` branch;
the enclosing `COALESCE` has a single argument and is the identity. -/
def get_user_wallet_address (p : Principal) : List Char :=
  match p.email with
  | some e => if likeKrakenWeb3 e then splitPartAt1 e else p.uid
  | none => p.uid

theorem likeKrakenWeb3_append (a : List Char) :
    likeKrakenWeb3 (a ++ krakenSuffix) = true := by
  have hlen : (a ++ krakenSuffix).length - krakenSuffix.length = a.length := by
    simp
  simp [likeKrakenWeb3, hlen, List.drop_left]

theorem likeKrakenWeb3_iff (e : List Char) :
    likeKrakenWeb3 e = true ↔ ∃ a, e = a ++ krakenSuffix := by
  constructor
  · intro h
    refine ⟨e.take (e.length - krakenSuffix.length), ?_⟩
    have hd : e.drop (e.length - krakenSuffix.length) = krakenSuffix := by
      simpa [likeKrakenWeb3] using h
    conv_lhs => rw [← List.take_append_drop (e.length - krakenSuffix.length) e]
    rw [hd]
  · rintro ⟨a, rfl⟩
    exact likeKrakenWeb3_append a

theorem takeWhile_append_of_forall {a b : List Char}
    (h : ∀ c ∈ a, c ≠ '@') :
    (a ++ '@' :: b).takeWhile (fun c => c != '@') = a := by
  induction a with
  | nil => simp [List.takeWhile]
  | cons x xs ih =>
    have hx : (x != '@') = true := by
      simpa using h x (List.mem_cons_self x xs)
    have hxs : ∀ c ∈ xs, c ≠ '@' := fun c hc => h c (List.mem_cons_of_mem x hc)
    simp [List.takeWhile, hx, ih hxs]

/-- Claim C1: for every authenticated principal, the identity resolver returns
the substring of the principal's email before the `'@'` when the email ends in
the reserved suffix `@kraken.web3` (the local part `a`, containing no `'@'`,
followed by the suffix whose first character is the `'@'`), and otherwise
returns the principal's raw unique id stringified. -/
theorem identity_resolver_spec (p : Principal) :
    (∀ a : List Char, p.email = some (a ++ krakenSuffix) → (∀ c ∈ a, c ≠ '@') →
      get_user_wallet_address p = a) ∧
    ((∀ e, p.email = some e → ∀ a : List Char, e ≠ a ++ krakenSuffix) →
      get_user_wallet_address p = p.uid) := by
  constructor
  · intro a hmail hno
    have hsuf : krakenSuffix = '@' :: "kraken.web3".toList := by decide
    have h1 : get_user_wallet_address p = splitPartAt1 (a ++ krakenSuffix) := by
      simp [get_user_wallet_address, hmail, likeKrakenWeb3_append]
    rw [h1, splitPartAt1, hsuf]
    exact takeWhile_append_of_forall hno
  · intro hne
    cases hm : p.email with
    | none => simp [get_user_wallet_address, hm]
    | some e =>
      have hfalse : likeKrakenWeb3 e = false := by
        rcases hb : likeKrakenWeb3 e with _ | _
        · rfl
        · rcases (likeKrakenWeb3_iff e).mp hb with ⟨a, ha⟩
          exact absurd ha (hne e hm a)
      simp [get_user_wallet_address, hm, hfalse]

/-- Witness for C1 at concrete inputs: a MetaMask-style synthetic email
resolves to the wallet address before the `'@'`, and a plain email principal
resolves to its raw uid. -/
theorem identity_resolver_spec_witness :
    get_user_wallet_address
      ⟨some ("0xabc123".toList ++ krakenSuffix), "uid-1".toList⟩ = "0xabc123".toList ∧
    get_user_wallet_address
      ⟨some "alice@gmail.com".toList, "uid-2".toList⟩ = "uid-2".toList := by
  constructor
  · exact (identity_resolver_spec _).1 "0xabc123".toList rfl (by decide)
  · exact (identity_resolver_spec _).2 (by
      intro e he a hcontra
      cases Option.some.inj he
      have : likeKrakenWeb3 "alice@gmail.com".toList = true :=
        hcontra ▸ likeKrakenWeb3_append a
      exact absurd this (by decide))

/-! ## Durable store: rows, policies and the two message triggers -/

/-- A row of the `conversations` table.  Resolved identities on this layer are
`String`s; `id` is the primary key (a uuid in the source, modelled as `Nat`
allocated sequentially by the store). -/
structure Conversation where
  id : Nat
  participants : List String
  last_message : String
  last_message_time : Int
  is_group : Bool
  updated_at : Int
deriving DecidableEq

/-- A row of the `messages` table (the columns the policies and triggers read). -/
structure MessageRow where
  id : Nat
  conversation_id : Option Nat
  sender : String
  receiver : String
  content : String
  created_at : Int
deriving DecidableEq

/-- A row of the `attachments` table (the single column the policies read). -/
structure AttachmentRow where
  message_id : Nat
deriving DecidableEq

/-- A row of `storage.objects`. -/
structure StorageObject where
  bucket_id : String
  name : String
deriving DecidableEq

/-- The durable store state; `nextConvId` models the store's fresh-uuid
allocation for `conversations.id`. -/
structure DB where
  conversations : List Conversation
  messages : List MessageRow
  nextConvId : Nat
deriving DecidableEq

def dbEmpty : DB := { conversations := [], messages := [], nextConvId := 0 }

/-- The row predicate of the trigger's lookup:
`participants @> ARRAY[sender] AND participants @> ARRAY[receiver] AND
array_length(participants, 1) = 2` (array containment of a singleton is
membership). -/
def pairMatch (s r : String) (c : Conversation) : Bool :=
  decide (s ∈ c.participants) && decide (r ∈ c.participants) &&
    (c.participants.length == 2)

/-- The trigger's `SELECT id ... LIMIT 1` over `conversations`. -/
def findPairConv (db : DB) (s r : String) : Option Conversation :=
  db.conversations.find? (pairMatch s r)

/-- `update_conversation_on_message` (BEFORE INSERT trigger on `messages`):
when `NEW.conversation_id IS NULL`, look up an existing conversation matching
the sender/receiver pair; if none, insert a fresh conversation seeded from the
message; either way bind `NEW.conversation_id`.  Returns the updated store and
the (possibly rebound) `NEW` row.  `updated_at` of the freshly inserted
conversation is not set by the source `INSERT`; no claim depends on it and it
is seeded with the message time here. -/
def update_conversation_on_message (db : DB) (new : MessageRow) :
    DB × MessageRow :=
  match new.conversation_id with
  | some _ => (db, new)
  | none =>
    match findPairConv db new.sender new.receiver with
    | some c => (db, { new with conversation_id := some c.id })
    | none =>
      let c : Conversation :=
        { id := db.nextConvId
          participants := [new.sender, new.receiver]
          last_message := new.content
          last_message_time := new.created_at
          is_group := false
          updated_at := new.created_at }
      ({ db with conversations := db.conversations ++ [c]
                 nextConvId := db.nextConvId + 1 },
       { new with conversation_id := some c.id })

/-- `update_conversation_last_message` (AFTER INSERT trigger on `messages`):
`UPDATE conversations SET last_message = NEW.content, last_message_time =
NEW.created_at, updated_at = NEW.created_at WHERE id = NEW.conversation_id`. -/
def update_conversation_last_message (db : DB) (new : MessageRow) : DB :=
  { db with conversations := db.conversations.map (fun c =>
      if new.conversation_id = some c.id then
        { c with last_message := new.content
                 last_message_time := new.created_at
                 updated_at := new.created_at }
      else c) }

/-- Full server-side processing of one `INSERT INTO messages` row: the BEFORE
INSERT trigger, the row insert itself, then the AFTER INSERT trigger. -/
def insertMessage (db : DB) (m : MessageRow) : DB × MessageRow :=
  let bm := update_conversation_on_message db m
  let db2 := { bm.1 with messages := bm.1.messages ++ [bm.2] }
  (update_conversation_last_message db2 bm.2, bm.2)

/-- `conversations_insert_policy` (TO authenticated):
`WITH CHECK (get_user_wallet_address() = ANY(participants))`. -/
def conversations_insert_allowed (identity : String) (parts : List String) :
    Bool :=
  decide (identity ∈ parts)

/-- `messages_insert_policy` (TO authenticated):
`WITH CHECK (get_user_wallet_address() = sender)`. -/
def messages_insert_allowed (identity : String) (m : MessageRow) : Bool :=
  identity == m.sender

/-- `attachments_insert_policy` (TO authenticated): the `EXISTS` join
`messages m JOIN conversations c ON c.id = m.conversation_id WHERE
m.id = attachments.message_id AND identity = ANY(c.participants)`.
The `attachments_select_policy` carries the identical predicate. -/
def attachments_insert_allowed (db : DB) (identity : String)
    (a : AttachmentRow) : Bool :=
  db.messages.any (fun m =>
    (m.id == a.message_id) &&
    db.conversations.any (fun c =>
      (m.conversation_id == some c.id) && decide (identity ∈ c.participants)))

/-- `attachments_bucket_insert_policy` on `storage.objects` (TO authenticated):
`WITH CHECK (bucket_id = 'attachments')`. -/
def attachments_bucket_insert_check (o : StorageObject) : Bool :=
  o.bucket_id == "attachments"

/-- `attachments_bucket_update_policy` on `storage.objects` (TO authenticated):
`USING (bucket_id = 'attachments')`. -/
def attachments_bucket_update_check (o : StorageObject) : Bool :=
  o.bucket_id == "attachments"

/-- `attachments_bucket_delete_policy` on `storage.objects` (TO authenticated):
`USING (bucket_id = 'attachments')`. -/
def attachments_bucket_delete_check (o : StorageObject) : Bool :=
  o.bucket_id == "attachments"

/-- The BEFORE INSERT trigger only rebinds `conversation_id`; every other
column of the `NEW` row is untouched. -/
theorem update_conversation_on_message_fields (db : DB) (m : MessageRow) :
    ((update_conversation_on_message db m).2).content = m.content ∧
    ((update_conversation_on_message db m).2).created_at = m.created_at ∧
    ((update_conversation_on_message db m).2).sender = m.sender ∧
    ((update_conversation_on_message db m).2).receiver = m.receiver := by
  rcases hcid : m.conversation_id with _ | cid
  · rcases hf : findPairConv db m.sender m.receiver with _ | c
    · simp [update_conversation_on_message, hcid, hf]
    · simp [update_conversation_on_message, hcid, hf]
  · simp [update_conversation_on_message, hcid]

/-- Claim C5: after a message insert runs through the trigger pipeline, every
conversation row bearing the bound `conversation_id` carries the just-inserted
message's content and time in `last_message`, `last_message_time` and
`updated_at` — unconditionally, with no comparison against the previously
stored `last_message_time`. -/
theorem rollup_unconditional (db : DB) (m : MessageRow) (c : Conversation)
    (hc : c ∈ ((insertMessage db m).1).conversations)
    (hid : ((insertMessage db m).2).conversation_id = some c.id) :
    c.last_message = m.content ∧ c.last_message_time = m.created_at ∧
      c.updated_at = m.created_at := by
  have hfield := update_conversation_on_message_fields db m
  have hc' : c ∈ (update_conversation_on_message db m).1.conversations.map
      (fun c0 =>
        if (update_conversation_on_message db m).2.conversation_id = some c0.id
        then { c0 with
                last_message := (update_conversation_on_message db m).2.content
                last_message_time :=
                  (update_conversation_on_message db m).2.created_at
                updated_at := (update_conversation_on_message db m).2.created_at }
        else c0) := hc
  have hid' : (update_conversation_on_message db m).2.conversation_id
      = some c.id := hid
  rcases List.mem_map.mp hc' with ⟨c0, _, hfc⟩
  by_cases hcond :
      (update_conversation_on_message db m).2.conversation_id = some c0.id
  · rw [if_pos hcond] at hfc
    refine ⟨?_, ?_, ?_⟩ <;> rw [← hfc]
    · exact hfield.1
    · exact hfield.2.1
    · exact hfield.2.1
  · rw [if_neg hcond] at hfc
    rw [← hfc] at hid'
    exact absurd hid' hcond

/-- A store holding one conversation whose stored rollup time is 100. -/
def rollupDB : DB := ⟨[⟨7, ["0xa", "0xb"], "newest", 100, false, 100⟩], [], 8⟩

/-- An already-bound message with `created_at` 5, older than the stored 100. -/
def backfillMsg : MessageRow := ⟨1, some 7, "0xa", "0xb", "backfill", 5⟩

/-- The conversation row after the backfill insert. -/
def rolledConv : Conversation := ⟨7, ["0xa", "0xb"], "backfill", 5, false, 5⟩

/-- Witness for C5: inserting a message whose `created_at` (5) is earlier than
the conversation's stored `last_message_time` (100) still overwrites the
rollup fields with the older message's content and time. -/
theorem rollup_unconditional_witness :
    rolledConv.last_message = backfillMsg.content ∧
    rolledConv.last_message_time = backfillMsg.created_at ∧
    rolledConv.updated_at = backfillMsg.created_at :=
  rollup_unconditional rollupDB backfillMsg rolledConv (by decide) (by decide)

/-- Claim C9: a self-message (sender = receiver = A) with no
`conversation_id`, arriving while A already has some two-member conversation,
is bound by the BEFORE INSERT trigger to such an existing conversation — the
containment lookup `participants @> ARRAY[A] AND participants @> ARRAY[A] AND
length = 2` matches any two-member conversation containing A — and no
dedicated self-conversation is created. -/
theorem self_message_binds_existing (db : DB) (A : String) (m : MessageRow)
    (hs : m.sender = A) (hr : m.receiver = A) (hcid : m.conversation_id = none)
    (hex : ∃ c ∈ db.conversations,
      A ∈ c.participants ∧ c.participants.length = 2) :
    (update_conversation_on_message db m).1 = db ∧
    ∃ c ∈ db.conversations,
      (update_conversation_on_message db m).2.conversation_id = some c.id ∧
      A ∈ c.participants ∧ c.participants.length = 2 := by
  have hfind : ∃ c, findPairConv db m.sender m.receiver = some c := by
    rcases hf : findPairConv db m.sender m.receiver with _ | c
    · exfalso
      rcases hex with ⟨c, hcmem, hcA, hclen⟩
      have hnone := List.find?_eq_none.mp hf c hcmem
      apply hnone
      simp [pairMatch, hs, hr, hcA, hclen]
    · exact ⟨c, rfl⟩
  rcases hfind with ⟨c, hf⟩
  have hmem := List.mem_of_find?_eq_some hf
  have hp := List.find?_some hf
  have hpm : A ∈ c.participants ∧ c.participants.length = 2 := by
    simp [pairMatch, hs, hr] at hp
    tauto
  have hres : update_conversation_on_message db m
      = (db, { m with conversation_id := some c.id }) := by
    simp [update_conversation_on_message, hcid, hf]
  exact ⟨by rw [hres], c, hmem, by rw [hres], hpm.1, hpm.2⟩

/-- Witness for C9: identity `0xa` has a conversation with `0xc` only; a
self-message from `0xa` to `0xa` is bound to that `0xa`/`0xc` conversation and
the store's conversation list is unchanged. -/
theorem self_message_binds_existing_witness :
    let db : DB := ⟨[⟨3, ["0xa", "0xc"], "", 0, false, 0⟩], [], 4⟩
    let m : MessageRow := ⟨9, none, "0xa", "0xa", "note to self", 50⟩
    (update_conversation_on_message db m).1 = db ∧
    ∃ c ∈ db.conversations,
      (update_conversation_on_message db m).2.conversation_id = some c.id ∧
      "0xa" ∈ c.participants ∧ c.participants.length = 2 := by
  exact self_message_binds_existing
    ⟨[⟨3, ["0xa", "0xc"], "", 0, false, 0⟩], [], 4⟩ "0xa"
    ⟨9, none, "0xa", "0xa", "note to self", 50⟩ rfl rfl rfl
    ⟨⟨3, ["0xa", "0xc"], "", 0, false, 0⟩, by decide, by decide, by decide⟩

/-- The rollup map of the AFTER INSERT trigger, as a standalone function on
one conversation row. -/
def rollupRow (new : MessageRow) (c : Conversation) : Conversation :=
  if new.conversation_id = some c.id then
    { c with last_message := new.content
             last_message_time := new.created_at
             updated_at := new.created_at }
  else c

theorem update_conversation_last_message_eq_map (db : DB) (new : MessageRow) :
    (update_conversation_last_message db new).conversations
      = db.conversations.map (rollupRow new) := rfl

theorem rollupRow_id (new : MessageRow) (c : Conversation) :
    (rollupRow new c).id = c.id := by
  unfold rollupRow
  split <;> rfl

theorem rollupRow_participants (new : MessageRow) (c : Conversation) :
    (rollupRow new c).participants = c.participants := by
  unfold rollupRow
  split <;> rfl

theorem pairMatch_rollupRow (new : MessageRow) (s r : String)
    (c : Conversation) : pairMatch s r (rollupRow new c) = pairMatch s r c := by
  unfold pairMatch
  rw [rollupRow_participants]

/-- The AFTER INSERT rollup does not change which conversation the pair
lookup finds, beyond the rollup of that row itself. -/
theorem findPairConv_update_last (db : DB) (new : MessageRow) (s r : String) :
    findPairConv (update_conversation_last_message db new) s r
      = (findPairConv db s r).map (rollupRow new) := by
  unfold findPairConv
  rw [update_conversation_last_message_eq_map, List.find?_map]
  have hpred : (pairMatch s r ∘ rollupRow new) = pairMatch s r := by
    funext c
    exact pairMatch_rollupRow new s r c
  rw [hpred]

/-- The conversation row the BEFORE INSERT trigger creates when the pair
lookup comes back empty. -/
def newConvOf (db : DB) (m : MessageRow) : Conversation :=
  { id := db.nextConvId
    participants := [m.sender, m.receiver]
    last_message := m.content
    last_message_time := m.created_at
    is_group := false
    updated_at := m.created_at }

/-- `insertMessage` with its let-bindings spelled out. -/
theorem insertMessage_def (db : DB) (m : MessageRow) :
    insertMessage db m
      = (update_conversation_last_message
          { (update_conversation_on_message db m).1 with
            messages := (update_conversation_on_message db m).1.messages
              ++ [(update_conversation_on_message db m).2] }
          (update_conversation_on_message db m).2,
         (update_conversation_on_message db m).2) := rfl

/-- Claim C4: with no existing two-member conversation containing both A and
B, inserting a message from A to B with null `conversation_id` and then a
message from B to A with null `conversation_id` binds both messages to the
same conversation id — the one freshly allocated by the first insert. -/
theorem find_or_create_order_independent (db : DB) (A B : String)
    (m1 m2 : MessageRow)
    (h1s : m1.sender = A) (h1r : m1.receiver = B)
    (h1c : m1.conversation_id = none)
    (h2s : m2.sender = B) (h2r : m2.receiver = A)
    (h2c : m2.conversation_id = none)
    (hdb : ∀ c ∈ db.conversations,
      ¬(A ∈ c.participants ∧ B ∈ c.participants ∧
        c.participants.length = 2)) :
    ((insertMessage db m1).2).conversation_id = some db.nextConvId ∧
    ((insertMessage (insertMessage db m1).1 m2).2).conversation_id
      = some db.nextConvId := by
  have hnomatch : ∀ c ∈ db.conversations, ∀ s r : String,
      (s = A ∧ r = B) ∨ (s = B ∧ r = A) → ¬ pairMatch s r c = true := by
    intro c hc s r hsr hp
    have hp' : s ∈ c.participants ∧ r ∈ c.participants ∧
        c.participants.length = 2 := by
      simp [pairMatch] at hp
      tauto
    rcases hsr with ⟨rfl, rfl⟩ | ⟨rfl, rfl⟩
    · exact hdb c hc ⟨hp'.1, hp'.2.1, hp'.2.2⟩
    · exact hdb c hc ⟨hp'.2.1, hp'.1, hp'.2.2⟩
  have hfind1 : findPairConv db m1.sender m1.receiver = none := by
    apply List.find?_eq_none.mpr
    intro c hc
    exact hnomatch c hc m1.sender m1.receiver (Or.inl ⟨h1s, h1r⟩)
  have hpre1 : update_conversation_on_message db m1 =
      ({ db with
          conversations := db.conversations ++ [newConvOf db m1]
          nextConvId := db.nextConvId + 1 },
       { m1 with conversation_id := some db.nextConvId }) := by
    simp [update_conversation_on_message, h1c, hfind1, newConvOf]
  have hfst : ((insertMessage db m1).2).conversation_id
      = some db.nextConvId := by
    rw [insertMessage_def, hpre1]
  refine ⟨hfst, ?_⟩
  -- the store after the first full insert
  have hconvs1 : (insertMessage db m1).1.conversations
      = (db.conversations ++ [newConvOf db m1]).map
        (rollupRow { m1 with conversation_id := some db.nextConvId }) := by
    rw [insertMessage_def, hpre1, update_conversation_last_message_eq_map]
  have hcnew : pairMatch m2.sender m2.receiver (newConvOf db m1) = true := by
    simp [pairMatch, newConvOf, h1s, h1r, h2s, h2r]
  have hfind2 : findPairConv (insertMessage db m1).1 m2.sender m2.receiver
      = some (rollupRow { m1 with conversation_id := some db.nextConvId }
          (newConvOf db m1)) := by
    unfold findPairConv
    rw [hconvs1, List.find?_map, List.find?_append]
    have hleft : db.conversations.find?
        (pairMatch m2.sender m2.receiver ∘
          rollupRow { m1 with conversation_id := some db.nextConvId }) = none := by
      apply List.find?_eq_none.mpr
      intro c hc
      show ¬ pairMatch m2.sender m2.receiver (rollupRow _ c) = true
      rw [pairMatch_rollupRow]
      exact hnomatch c hc m2.sender m2.receiver (Or.inr ⟨h2s, h2r⟩)
    rw [hleft]
    simp only [Option.none_or]
    have hone : List.find?
        (pairMatch m2.sender m2.receiver ∘
          rollupRow { m1 with conversation_id := some db.nextConvId })
        [newConvOf db m1] = some (newConvOf db m1) := by
      rw [List.find?_cons_of_pos]
      show pairMatch m2.sender m2.receiver (rollupRow _ _) = true
      rw [pairMatch_rollupRow]
      exact hcnew
    rw [hone]
    rfl
  have hidnew : (rollupRow { m1 with conversation_id := some db.nextConvId }
      (newConvOf db m1)).id = db.nextConvId := by
    rw [rollupRow_id]
    rfl
  have hpre2 : (update_conversation_on_message (insertMessage db m1).1 m2).2
      = { m2 with conversation_id := some db.nextConvId } := by
    simp [update_conversation_on_message, h2c, hfind2, hidnew]
  have hsnd : ((insertMessage (insertMessage db m1).1 m2).2).conversation_id
      = ({ m2 with conversation_id := some db.nextConvId } : MessageRow).conversation_id := by
    rw [insertMessage_def, hpre2]
  rw [hsnd]

/-- Witness for C4: in an empty store, `0xa → 0xb` then `0xb → 0xa` both bind
to the conversation allocated id 0. -/
theorem find_or_create_order_independent_witness :
    ((insertMessage dbEmpty ⟨1, none, "0xa", "0xb", "hi", 10⟩).2).conversation_id
      = some 0 ∧
    ((insertMessage (insertMessage dbEmpty
        ⟨1, none, "0xa", "0xb", "hi", 10⟩).1
        ⟨2, none, "0xb", "0xa", "yo", 20⟩).2).conversation_id = some 0 := by
  exact find_or_create_order_independent dbEmpty "0xa" "0xb"
    ⟨1, none, "0xa", "0xb", "hi", 10⟩ ⟨2, none, "0xb", "0xa", "yo", 20⟩
    rfl rfl rfl rfl rfl rfl (by intro c hc; simp [dbEmpty] at hc)

theorem rollupRow_is_group (new : MessageRow) (c : Conversation) :
    (rollupRow new c).is_group = c.is_group := by
  unfold rollupRow
  split <;> rfl

theorem pairMatch_comm (s r : String) (c : Conversation) :
    pairMatch s r c = pairMatch r s c := by
  rcases hx : decide (s ∈ c.participants) with _ | _ <;>
    rcases hy : decide (r ∈ c.participants) with _ | _ <;>
      simp [pairMatch, hx, hy]

/-! ## Reachable store states and pair uniqueness -/

/-- A write a client session can attempt against the durable store. -/
inductive DBOp where
  | insertConv (identity : String) (parts : List String)
  | insertMsg (identity : String) (m : MessageRow)

/-- Apply one client write under the migration's row policies: a direct
`INSERT INTO conversations` is guarded by `conversations_insert_policy`
(the omitted columns take their defaults; `last_message_time` and
`updated_at` carry no default and are modelled as 0 — no claim reads them
on this path); an `INSERT INTO messages` is guarded by
`messages_insert_policy` and fires the two triggers.  `none` models the
policy rejecting the write. -/
def applyOp (db : DB) (op : DBOp) : Option DB :=
  match op with
  | .insertConv identity parts =>
    if conversations_insert_allowed identity parts then
      some { db with
        conversations := db.conversations ++
          [{ id := db.nextConvId, participants := parts, last_message := ""
             last_message_time := 0, is_group := false, updated_at := 0 }]
        nextConvId := db.nextConvId + 1 }
    else none
  | .insertMsg identity m =>
    if messages_insert_allowed identity m then some (insertMessage db m).1
    else none

/-- A sequence of policy-permitted writes; `none` as soon as one is denied. -/
def applyOps (db : DB) : List DBOp → Option DB
  | [] => some db
  | op :: rest =>
    match applyOp db op with
    | some db2 => applyOps db2 rest
    | none => none

/-- The number of non-group conversation rows whose two-member participant
array contains both a and b. -/
def pairRows (db : DB) (a b : String) : Nat :=
  db.conversations.countP (fun c => !c.is_group && pairMatch a b c)

/-- The invariant of claim C2: every unordered pair of distinct identities
has at most one non-group conversation row. -/
def pairUnique (db : DB) : Prop :=
  ∀ a b : String, a ≠ b → pairRows db a b ≤ 1

/-- Two policy-permitted direct conversation inserts by the same identity for
the same pair. -/
def duplicatePairOps : List DBOp :=
  [.insertConv "0xa" ["0xa", "0xb"], .insertConv "0xa" ["0xa", "0xb"]]

/-- The store those two writes produce. -/
def duplicatePairDB : DB :=
  { conversations :=
      [{ id := 0, participants := ["0xa", "0xb"], last_message := ""
         last_message_time := 0, is_group := false, updated_at := 0 },
       { id := 1, participants := ["0xa", "0xb"], last_message := ""
         last_message_time := 0, is_group := false, updated_at := 0 }]
    messages := []
    nextConvId := 2 }

/-- Counterexample to claim C2: a state with two non-group conversation rows
for the same unordered pair is reachable from the empty store through writes
the migration's policies permit — no structural uniqueness constraint rejects
it; only the trigger's find-before-create check stands between message
inserts and duplicates. -/
theorem pair_uniqueness_not_structural :
    applyOps dbEmpty duplicatePairOps = some duplicatePairDB ∧
    ¬ pairUnique duplicatePairDB := by
  constructor
  · decide
  · intro h
    exact absurd (h "0xa" "0xb" (by decide)) (by decide)

/-- Claim C2 as amended: the pair-uniqueness invariant is preserved along the
message-insert path alone — the BEFORE INSERT trigger's find-before-create
check never adds a second two-member row for a pair that already has one —
but it is not enforced structurally (see the counterexample reached by direct
conversation inserts). -/
theorem trigger_preserves_pair_unique (db : DB) (m : MessageRow)
    (h : pairUnique db) : pairUnique (insertMessage db m).1 := by
  intro a b hab
  have hmap : (insertMessage db m).1.conversations
      = (update_conversation_on_message db m).1.conversations.map
          (rollupRow (update_conversation_on_message db m).2) := by
    rw [insertMessage_def, update_conversation_last_message_eq_map]
  have hpred : ((fun c => !c.is_group && pairMatch a b c) ∘
      rollupRow (update_conversation_on_message db m).2)
      = (fun c => !c.is_group && pairMatch a b c) := by
    funext c
    show (!(rollupRow (update_conversation_on_message db m).2 c).is_group &&
        pairMatch a b (rollupRow (update_conversation_on_message db m).2 c))
      = (!c.is_group && pairMatch a b c)
    rw [rollupRow_is_group, pairMatch_rollupRow]
  have hcount : pairRows (insertMessage db m).1 a b
      = (update_conversation_on_message db m).1.conversations.countP
          (fun c => !c.is_group && pairMatch a b c) := by
    rw [pairRows, hmap, List.countP_map, hpred]
  rw [pairRows] at hcount
  unfold pairRows
  rw [hcount]
  have hbase := h a b hab
  rw [pairRows] at hbase
  rcases hcid : m.conversation_id with _ | cid
  · rcases hf : findPairConv db m.sender m.receiver with _ | c
    · -- a fresh conversation for (sender, receiver) is appended
      have hpre : (update_conversation_on_message db m).1.conversations
          = db.conversations ++ [newConvOf db m] := by
        simp [update_conversation_on_message, hcid, hf, newConvOf]
      rw [hpre, List.countP_append]
      by_cases hnew :
          (!(newConvOf db m).is_group && pairMatch a b (newConvOf db m)) = true
      · -- then {a, b} = {sender, receiver}, and no old row matched the pair
        have hmm : (a = m.sender ∨ a = m.receiver) ∧
            (b = m.sender ∨ b = m.receiver) := by
          have := hnew
          simp [pairMatch, newConvOf] at this
          tauto
        have hcase : (a = m.sender ∧ b = m.receiver) ∨
            (a = m.receiver ∧ b = m.sender) := by
          rcases hmm.1 with ha | ha <;> rcases hmm.2 with hb | hb
          · exact absurd (ha.trans hb.symm) hab
          · exact Or.inl ⟨ha, hb⟩
          · exact Or.inr ⟨ha, hb⟩
          · exact absurd (ha.trans hb.symm) hab
        have hzero : db.conversations.countP
            (fun c => !c.is_group && pairMatch a b c) = 0 := by
          rw [List.countP_eq_zero]
          intro c hc
          have hfc := List.find?_eq_none.mp hf c hc
          intro hp
          apply hfc
          have hp2 : pairMatch a b c = true := by
            rcases hp3 : pairMatch a b c with _ | _
            · rw [hp3] at hp
              simp at hp
            · rfl
          rcases hcase with ⟨rfl, rfl⟩ | ⟨rfl, rfl⟩
          · exact hp2
          · rw [pairMatch_comm] at hp2
            exact hp2
        rw [hzero]
        simp [hnew]
      · have hone : List.countP (fun c => !c.is_group && pairMatch a b c)
            [newConvOf db m] = 0 := by
          simp only [List.countP_cons, List.countP_nil]
          simp [hnew]
        rw [hone]
        omega
    · -- an existing conversation is reused; the store is unchanged
      have hpre : (update_conversation_on_message db m).1 = db := by
        simp [update_conversation_on_message, hcid, hf]
      rw [hpre]
      exact hbase
  · -- the message already carries a conversation id; the store is unchanged
    have hpre : (update_conversation_on_message db m).1 = db := by
      simp [update_conversation_on_message, hcid]
    rw [hpre]
    exact hbase

/-- Witness for the amended C2: one trigger-mediated message insert into the
empty store keeps the pair-uniqueness invariant. -/
theorem trigger_preserves_pair_unique_witness :
    pairUnique (insertMessage dbEmpty ⟨1, none, "0xa", "0xb", "hi", 10⟩).1 := by
  exact trigger_preserves_pair_unique dbEmpty ⟨1, none, "0xa", "0xb", "hi", 10⟩
    (by
      intro a b hab
      simp [pairRows, dbEmpty])

/-! ## Storage bucket policies versus the attachments table policy -/

/-- A store with one conversation between `0xa` and `0xb` owning message 1;
identity `0xeve` participates in nothing. -/
def strangerDB : DB :=
  { conversations := [⟨0, ["0xa", "0xb"], "hi", 10, false, 10⟩]
    messages := [⟨1, some 0, "0xa", "0xb", "hi", 10⟩]
    nextConvId := 1 }

/-- Counterexample to claim C3: `0xeve` is a participant of no conversation —
the `attachments` table policy denies it — yet all three
`storage.objects` policies for the `attachments` bucket admit its write,
update and delete, because they test only the bucket id. -/
theorem storage_write_not_participant_gated :
    attachments_bucket_insert_check ⟨"attachments", "1/file.png"⟩ = true ∧
    attachments_bucket_update_check ⟨"attachments", "1/file.png"⟩ = true ∧
    attachments_bucket_delete_check ⟨"attachments", "1/file.png"⟩ = true ∧
    strangerDB.conversations.all
      (fun c => !(decide ("0xeve" ∈ c.participants))) = true ∧
    attachments_insert_allowed strangerDB "0xeve" ⟨1⟩ = false := by
  decide

/-- Claim C3 as amended: on the `attachments` storage bucket, write, update
and delete are permitted for every authenticated principal — the checks
depend only on the bucket id — while the participant-of-the-owning-
conversation restriction holds exactly on the `attachments` table policies. -/
theorem storage_bucket_policy_spec (o : StorageObject) (db : DB)
    (identity : String) (a : AttachmentRow) :
    (attachments_bucket_insert_check o = true ↔ o.bucket_id = "attachments") ∧
    (attachments_bucket_update_check o = true ↔ o.bucket_id = "attachments") ∧
    (attachments_bucket_delete_check o = true ↔ o.bucket_id = "attachments") ∧
    (attachments_insert_allowed db identity a = true ↔
      ∃ m ∈ db.messages, m.id = a.message_id ∧
        ∃ c ∈ db.conversations, m.conversation_id = some c.id ∧
          identity ∈ c.participants) := by
  refine ⟨?_, ?_, ?_, ?_⟩
  · simp [attachments_bucket_insert_check]
  · simp [attachments_bucket_update_check]
  · simp [attachments_bucket_delete_check]
  · simp only [attachments_insert_allowed, List.any_eq_true, Bool.and_eq_true,
      beq_iff_eq, decide_eq_true_eq]

/-! ## Client-side reconciliation (the Messages component) -/

/-- A client-side message as the Messages component handles it. -/
structure CMessage where
  id : String
  sender : String
  receiver : String
  content : String
  timestamp : Int
  status : String
  transport : String
  encrypted : Bool
deriving DecidableEq

/-- Order by timestamp, the order of the comparator
`(a, b) => a.timestamp - b.timestamp`. -/
def tsLE (a b : CMessage) : Prop := a.timestamp ≤ b.timestamp

instance : DecidableRel tsLE := fun a b =>
  inferInstanceAs (Decidable (a.timestamp ≤ b.timestamp))

instance : IsTotal CMessage tsLE :=
  ⟨fun a b => Int.le_total a.timestamp b.timestamp⟩

instance : IsTrans CMessage tsLE :=
  ⟨fun _ _ _ hab hbc => le_trans hab hbc⟩

/-- JS `[...].sort((a, b) => a.timestamp - b.timestamp)`: `Array.prototype.sort`
is stable (ES2019), and a stable non-decreasing reordering is unique, so it is
realised here by a stable insertion sort. -/
def sortByTimestamp (xs : List CMessage) : List CMessage :=
  List.insertionSort tsLE xs

/-- The list is in non-decreasing timestamp order. -/
def timeSorted (l : List CMessage) : Prop := List.Sorted tsLE l

instance (l : List CMessage) : Decidable (timeSorted l) :=
  inferInstanceAs (Decidable (List.Sorted tsLE l))

/-- The `onMessage` handler's state update in `initializeMessaging`: an
inbound message whose id already occurs in the list is discarded; otherwise
it is appended and the whole list re-sorted by timestamp. -/
def mergeMessage (prev : List CMessage) (m : CMessage) : List CMessage :=
  if prev.any (fun x => x.id == m.id) then prev
  else sortByTimestamp (prev ++ [m])

/-- Claim C6: merging a message whose id is already present leaves the list
unchanged (same length, same content); merging a fresh id yields exactly the
old list plus the new message (a permutation of `prev ++ [m]`), re-sorted
into non-decreasing timestamp order. -/
theorem merge_idempotent_and_sorted (prev : List CMessage) (m : CMessage) :
    (prev.any (fun x => x.id == m.id) = true → mergeMessage prev m = prev) ∧
    (prev.any (fun x => x.id == m.id) = false →
      (mergeMessage prev m).Perm (prev ++ [m]) ∧
      timeSorted (mergeMessage prev m)) := by
  constructor
  · intro h
    simp [mergeMessage, h]
  · intro h
    have hcond : ¬ (prev.any (fun x => x.id == m.id) = true) := by
      simp [h]
    constructor
    · rw [mergeMessage, if_neg hcond]
      exact List.perm_insertionSort tsLE (prev ++ [m])
    · rw [mergeMessage, if_neg hcond]
      exact List.sorted_insertionSort tsLE (prev ++ [m])

def msgDup1 : CMessage := ⟨"m1", "0xa", "0xb", "hi", 10, "sent", "gun", false⟩

def msgDup2 : CMessage :=
  ⟨"m1", "0xa", "0xb", "hi again", 20, "sent", "gun", false⟩

def msgFresh : CMessage := ⟨"m2", "0xb", "0xa", "yo", 5, "sent", "gun", true⟩

/-- Witness for C6: a duplicate id is discarded; a fresh id is inserted and
the result is sorted. -/
theorem merge_idempotent_and_sorted_witness :
    mergeMessage [msgDup1] msgDup2 = [msgDup1] ∧
    (mergeMessage [msgDup1] msgFresh).Perm ([msgDup1] ++ [msgFresh]) ∧
    timeSorted (mergeMessage [msgDup1] msgFresh) :=
  ⟨(merge_idempotent_and_sorted [msgDup1] msgDup2).1 (by decide),
   ((merge_idempotent_and_sorted [msgDup1] msgFresh).2 (by decide)).1,
   ((merge_idempotent_and_sorted [msgDup1] msgFresh).2 (by decide)).2⟩

/-- One mutation of the component's in-memory message list. -/
inductive Mutation where
  | localLoad (snapshot : List CMessage)
  | inbound (m : CMessage)
  | localSend (m : CMessage)

/-- The three mutation paths of the component.  `localLoad` models
`setMessages(existingMessages)` after `loadMessagesFromLocal()`: the snapshot
is installed verbatim, with no sort.  Modelled from the spec for the missing
collaborator: `messagingService.loadMessagesFromLocal` is not in the source
tree, and §4.4 of the spec guarantees only that it returns the persisted
sequence for the caller, with no ordering promise — the snapshot is therefore
an arbitrary list.  `inbound` is the `onMessage` handler; `localSend` is the
optimistic append-and-sort in `handleSend`. -/
def applyMutation (msgs : List CMessage) : Mutation → List CMessage
  | .localLoad snapshot => snapshot
  | .inbound m => mergeMessage msgs m
  | .localSend m => sortByTimestamp (msgs ++ [m])

def applyMutations (msgs : List CMessage) (ms : List Mutation) : List CMessage :=
  ms.foldl applyMutation msgs

/-- Counterexample to claim C7: the initial-load mutation installs the local
snapshot verbatim, so loading an unsorted snapshot leaves the list out of
timestamp order. -/
theorem sort_invariant_fails_on_load :
    ¬ timeSorted (applyMutations []
      [Mutation.localLoad
        [⟨"m9", "0xb", "0xa", "later", 100, "sent", "gun", false⟩,
         ⟨"m8", "0xa", "0xb", "earlier", 50, "sent", "gun", false⟩]]) := by
  decide

theorem applyMutation_preserves_sorted (msgs : List CMessage) (mu : Mutation)
    (h : timeSorted msgs)
    (hload : ∀ s, mu = Mutation.localLoad s → timeSorted s) :
    timeSorted (applyMutation msgs mu) := by
  cases mu with
  | localLoad s => exact hload s rfl
  | inbound m =>
    show timeSorted (mergeMessage msgs m)
    rw [mergeMessage]
    split
    · exact h
    · exact List.sorted_insertionSort tsLE (msgs ++ [m])
  | localSend m => exact List.sorted_insertionSort tsLE (msgs ++ [m])

/-- Claim C7 as amended: every inbound-transport merge and local send leaves
the list non-decreasing by timestamp, and so does any mutation sequence
starting from a sorted list — provided each initial-load snapshot in the
sequence is itself sorted.  The load path installs the snapshot verbatim
(see the counterexample), so sortedness of loads is a genuine side
condition, not a consequence of the code. -/
theorem sort_invariant_with_sorted_loads (ms : List Mutation) :
    ∀ init : List CMessage, timeSorted init →
      (∀ s, Mutation.localLoad s ∈ ms → timeSorted s) →
      timeSorted (applyMutations init ms) := by
  induction ms with
  | nil =>
    intro init h0 _
    exact h0
  | cons mu rest ih =>
    intro init h0 hl
    have hstep : timeSorted (applyMutation init mu) :=
      applyMutation_preserves_sorted init mu h0
        (fun s hs => hl s (by rw [← hs]; exact List.mem_cons_self mu rest))
    exact ih (applyMutation init mu) hstep
      (fun s hs => hl s (List.mem_cons_of_mem _ hs))

/-- Witness for the amended C7: a sorted load, then a send and an inbound
merge, ends sorted. -/
theorem sort_invariant_with_sorted_loads_witness :
    timeSorted (applyMutations []
      [Mutation.localLoad [msgFresh, msgDup1],
       Mutation.localSend msgDup2,
       Mutation.inbound ⟨"m3", "0xa", "0xb", "mid", 7, "sent", "gun", false⟩]) := by
  apply sort_invariant_with_sorted_loads
  · decide
  · intro s hs
    simp only [List.mem_cons, List.not_mem_nil, or_false] at hs
    rcases hs with hs | hs | hs
    · cases hs
      decide
    · cases hs
    · cases hs

/-- The catch block of `handleSend`: mark as failed the element whose id
equals `prev[prev.length - 1]?.id` — the id of the LAST element of the
current list (`undefined`, matching nothing, when the list is empty). -/
def markLastFailed (msgs : List CMessage) : List CMessage :=
  match msgs.getLast? with
  | none => msgs
  | some last =>
    msgs.map (fun m =>
      if m.id == last.id then { m with status := "failed" } else m)

/-- A failed send in `handleSend`: the optimistic update appends the
synthesized message and re-sorts; the catch block then runs
`markLastFailed` on the resulting list.  (The success path, by contrast,
targets `localMessage.id` directly.) -/
def handleSendFailure (prev : List CMessage) (localMessage : CMessage) :
    List CMessage :=
  markLastFailed (sortByTimestamp (prev ++ [localMessage]))

def peerFuture : CMessage :=
  ⟨"peer1", "0xb", "0xa", "from the future", 200, "sent", "gun", false⟩

def localHello : CMessage :=
  ⟨"loc1", "0xa", "0xb", "hello", 100, "sending", "gun", false⟩

/-- Claim C8, failing input: the list already holds a message with timestamp
200 when a send with timestamp 100 fails.  After sorting, the synthesized
message is not last, so the catch block marks the *peer's* message as failed
and leaves the synthesized message stuck in status `sending` (though still
present, with its encrypted flag intact). -/
theorem send_failure_marks_wrong_message :
    handleSendFailure [peerFuture] localHello
      = [localHello, { peerFuture with status := "failed" }] ∧
    localHello.status = "sending" ∧
    localHello.encrypted = false ∧
    localHello.id ≠ peerFuture.id := by
  decide

/-! ## Client-side conversation derivation (`generateConversationsFromMessages`) -/

/-- A client-side conversation summary.  `last_message_time` is stored in the
source as an ISO string and read back with `new Date(...).getTime()`; that
round trip is lossless on integer epoch milliseconds, so it is modelled as
the `Int` timestamp itself. -/
structure ClientConversation where
  id : String
  participants : List String
  last_message : String
  last_message_time : Int
  is_group : Bool
deriving DecidableEq

/-- Lexicographic comparison of strings as character sequences (the order JS
string comparison uses), decided structurally. -/
def strLtB (a b : String) : Bool := decide (a.data < b.data)

/-- JS `[message.sender, message.receiver].sort()` on a two-element array:
the pair in lexicographic order (swapped exactly when receiver < sender). -/
def sortedPair (m : CMessage) : String × String :=
  if strLtB m.receiver m.sender then (m.receiver, m.sender)
  else (m.sender, m.receiver)

/-- `participants.join('-')`, the conversation map key. -/
def convKey (m : CMessage) : String :=
  (sortedPair m).1 ++ "-" ++ (sortedPair m).2

/-- The summary created when a pair key is first seen. -/
def initSummary (m : CMessage) : ClientConversation :=
  { id := convKey m
    participants := [(sortedPair m).1, (sortedPair m).2]
    last_message := m.content
    last_message_time := m.timestamp
    is_group := false }

/-- The `else` branch of the forEach body: replace the rolled-up last message
only when the new message's timestamp is strictly greater than the stored
one. -/
def updateSummary (c : ClientConversation) (m : CMessage) : ClientConversation :=
  if c.last_message_time < m.timestamp then
    { c with last_message := m.content, last_message_time := m.timestamp }
  else c

/-- `conversationMap.get(k)` over the insertion-ordered entry list. -/
def lookupEntry : List (String × ClientConversation) → String →
    Option ClientConversation
  | [], _ => none
  | kv :: rest, k => if kv.1 = k then some kv.2 else lookupEntry rest k

/-- `conversationMap.set(k, c)` on a key that is already present: replace the
stored value, keeping insertion order. -/
def setEntry : List (String × ClientConversation) → String →
    ClientConversation → List (String × ClientConversation)
  | [], _, _ => []
  | kv :: rest, k, c =>
    if kv.1 = k then (kv.1, c) :: setEntry rest k c
    else kv :: setEntry rest k c

/-- One iteration of the `messageList.forEach` body: a fresh key appends a
new entry (JS `Map` preserves insertion order); an existing key updates the
stored summary in place. -/
def conversationStep (acc : List (String × ClientConversation))
    (m : CMessage) : List (String × ClientConversation) :=
  match lookupEntry acc (convKey m) with
  | none => acc ++ [(convKey m, initSummary m)]
  | some c => setEntry acc (convKey m) (updateSummary c m)

/-- Descending recency, the order of the final comparator
`(a, b) => time(b) - time(a)`. -/
def recencyGE (a b : ClientConversation) : Prop :=
  b.last_message_time ≤ a.last_message_time

instance : DecidableRel recencyGE := fun a b =>
  inferInstanceAs (Decidable (b.last_message_time ≤ a.last_message_time))

instance : IsTotal ClientConversation recencyGE :=
  ⟨fun a b => Int.le_total b.last_message_time a.last_message_time⟩

instance : IsTrans ClientConversation recencyGE :=
  ⟨fun _ _ _ hab hbc => le_trans hbc hab⟩

/-- JS `walletAddress.toLowerCase()`: lower-case the characters.  (Defined
structurally on the character list so that it evaluates inside proofs.) -/
def toLowerStr (s : String) : String := ⟨s.data.map Char.toLower⟩

/-- `generateConversationsFromMessages`: fold the forEach over the message
list, take the map's values in insertion order, keep the summaries whose
participants include the lowercased wallet address, and sort by recency
descending (JS stable sort, modelled by stable insertion sort). -/
def generateConversationsFromMessages (walletAddress : String)
    (messageList : List CMessage) : List ClientConversation :=
  let entries := messageList.foldl conversationStep []
  List.insertionSort recencyGE
    ((entries.map (fun kv => kv.2)).filter
      (fun c => decide (toLowerStr walletAddress ∈ c.participants)))

/-- The effect of the forEach body on a single key, as a scalar fold step. -/
def entryFold (o : Option ClientConversation) (m : CMessage) :
    Option ClientConversation :=
  match o with
  | none => some (initSummary m)
  | some c => some (updateSummary c m)

theorem updateSummary_id (c : ClientConversation) (m : CMessage) :
    (updateSummary c m).id = c.id := by
  unfold updateSummary
  split <;> rfl

theorem lookupEntry_append (acc : List (String × ClientConversation))
    (kv : String × ClientConversation) (k : String) :
    lookupEntry (acc ++ [kv]) k
      = (lookupEntry acc k).or (if kv.1 = k then some kv.2 else none) := by
  induction acc with
  | nil =>
    simp [lookupEntry]
  | cons kv0 acc ih =>
    by_cases h : kv0.1 = k
    · simp [lookupEntry, h]
    · simp [lookupEntry, h, ih]

theorem lookupEntry_setEntry (acc : List (String × ClientConversation))
    (k k2 : String) (c : ClientConversation) :
    lookupEntry (setEntry acc k c) k2
      = if k = k2 then (lookupEntry acc k2).map (fun _ => c)
        else lookupEntry acc k2 := by
  induction acc with
  | nil =>
    by_cases h : k = k2 <;> simp [lookupEntry, setEntry, h]
  | cons kv acc ih =>
    by_cases h1 : kv.1 = k
    · by_cases h2 : kv.1 = k2
      · have hkk : k = k2 := h1 ▸ h2
        simp [setEntry, lookupEntry, h1, h2, hkk]
      · have hkk : ¬ k = k2 := fun he => h2 (he ▸ h1)
        simp [setEntry, lookupEntry, h1, h2, hkk, ih]
    · by_cases h2 : kv.1 = k2
      · by_cases hkk : k = k2
        · exact absurd (hkk ▸ h2 : kv.1 = k) h1
        · have hkk2 : ¬ k2 = k := fun he => hkk he.symm
          simp [setEntry, lookupEntry, h1, h2, hkk, hkk2]
      · simp [setEntry, lookupEntry, h1, h2, ih]

/-- The forEach body touches only the entry of the incoming message's key. -/
theorem lookupEntry_conversationStep
    (acc : List (String × ClientConversation)) (m : CMessage) (k : String) :
    lookupEntry (conversationStep acc m) k
      = if convKey m = k then entryFold (lookupEntry acc k) m
        else lookupEntry acc k := by
  unfold conversationStep
  rcases hl : lookupEntry acc (convKey m) with _ | c
  · rw [lookupEntry_append]
    by_cases hk : convKey m = k
    · rw [← hk, hl]
      simp [entryFold]
    · rw [if_neg hk, if_neg hk]
      simp
  · rw [lookupEntry_setEntry]
    by_cases hk : convKey m = k
    · rw [if_pos hk, if_pos hk, ← hk, hl]
      rfl
    · rw [if_neg hk, if_neg hk]

/-- The entry stored under key k after the whole forEach equals the scalar
fold of the body over exactly the messages carrying key k, in order. -/
theorem lookupEntry_foldl (ms : List CMessage) :
    ∀ (acc : List (String × ClientConversation)) (k : String),
      lookupEntry (ms.foldl conversationStep acc) k
        = (ms.filter (fun m => convKey m == k)).foldl entryFold
            (lookupEntry acc k) := by
  induction ms with
  | nil =>
    intro acc k
    rfl
  | cons m rest ih =>
    intro acc k
    show lookupEntry (rest.foldl conversationStep (conversationStep acc m)) k
      = _
    rw [ih]
    by_cases hk : convKey m = k
    · have hfk : (convKey m == k) = true := by simp [hk]
      rw [lookupEntry_conversationStep, if_pos hk]
      simp [List.filter_cons, hfk]
    · have hfk : (convKey m == k) = false := by simp [hk]
      rw [lookupEntry_conversationStep, if_neg hk]
      simp [List.filter_cons, hfk]

theorem foldl_entryFold_some (gs : List CMessage) :
    ∀ c : ClientConversation,
      gs.foldl entryFold (some c) = some (gs.foldl updateSummary c) := by
  induction gs with
  | nil =>
    intro c
    rfl
  | cons g gs ih =>
    intro c
    exact ih (updateSummary c g)

/-- `c` summarizes the processed message list `l`: its rolled-up content and
time are those of the earliest message of `l` attaining the maximal
timestamp — everything before that message is strictly older, and nothing in
`l` is strictly newer. -/
def SummaryOf (c : ClientConversation) (l : List CMessage) : Prop :=
  ∃ pre x post, l = pre ++ x :: post ∧
    c.last_message = x.content ∧ c.last_message_time = x.timestamp ∧
    (∀ y ∈ pre, y.timestamp < x.timestamp) ∧
    (∀ y ∈ l, y.timestamp ≤ x.timestamp)

theorem summaryOf_init (m : CMessage) : SummaryOf (initSummary m) [m] := by
  refine ⟨[], m, [], rfl, rfl, rfl, ?_, ?_⟩
  · intro y hy
    cases hy
  · intro y hy
    rcases List.mem_singleton.mp hy with rfl
    exact le_refl _

theorem summaryOf_update (c : ClientConversation) (l : List CMessage)
    (m : CMessage) (h : SummaryOf c l) :
    SummaryOf (updateSummary c m) (l ++ [m]) := by
  obtain ⟨pre, x, post, hl, hcont, htime, hpre, hmax⟩ := h
  by_cases hlt : c.last_message_time < m.timestamp
  · -- strictly newer: the incoming message becomes the rollup
    refine ⟨l, m, [], by simp, ?_, ?_, ?_, ?_⟩
    · simp [updateSummary, hlt]
    · simp [updateSummary, hlt]
    · intro y hy
      have hy2 := hmax y hy
      rw [htime] at hlt
      exact lt_of_le_of_lt hy2 hlt
    · intro y hy
      rcases List.mem_append.mp hy with hy | hy
      · have hy2 := hmax y hy
        rw [htime] at hlt
        exact le_of_lt (lt_of_le_of_lt hy2 hlt)
      · rcases List.mem_singleton.mp hy with rfl
        exact le_refl _
  · -- equal or older: the stored rollup is kept
    have hkeep : updateSummary c m = c := by
      simp [updateSummary, hlt]
    rw [hkeep]
    have hmle : m.timestamp ≤ x.timestamp := by
      rw [htime] at hlt
      omega
    refine ⟨pre, x, post ++ [m], ?_, hcont, htime, hpre, ?_⟩
    · rw [hl]
      simp
    · intro y hy
      rcases List.mem_append.mp hy with hy | hy
      · exact hmax y hy
      · rcases List.mem_singleton.mp hy with rfl
        exact hmle

theorem summaryOf_foldl (gs : List CMessage) :
    ∀ (c : ClientConversation) (l : List CMessage), SummaryOf c l →
      SummaryOf (gs.foldl updateSummary c) (l ++ gs) := by
  induction gs with
  | nil =>
    intro c l h
    simpa using h
  | cons g gs ih =>
    intro c l h
    have h3 := ih (updateSummary c g) (l ++ [g]) (summaryOf_update c l g h)
    simpa using h3

/-- The scalar fold over a nonempty key group yields its first-of-maximum
summary. -/
theorem entryFold_none_summary (group : List CMessage)
    (c : ClientConversation) (h : group.foldl entryFold none = some c) :
    SummaryOf c group := by
  cases group with
  | nil => cases h
  | cons g gs =>
    have h2 : gs.foldl entryFold (some (initSummary g)) = some c := h
    rw [foldl_entryFold_some] at h2
    have h3 := Option.some.inj h2
    have h4 := summaryOf_foldl gs (initSummary g) [g] (summaryOf_init g)
    rw [h3] at h4
    simpa using h4

/-- The invariant of the entry list: keys are pairwise distinct and every
stored summary's id is its key. -/
def EntriesOK (acc : List (String × ClientConversation)) : Prop :=
  List.Pairwise (fun a b => a.1 ≠ b.1) acc ∧ ∀ kv ∈ acc, kv.2.id = kv.1

theorem mem_setEntry {acc : List (String × ClientConversation)} {k : String}
    {c : ClientConversation} {b : String × ClientConversation}
    (hb : b ∈ setEntry acc k c) : ∃ b0 ∈ acc, b.1 = b0.1 := by
  induction acc with
  | nil => cases hb
  | cons kv acc ih =>
    by_cases h : kv.1 = k
    · rw [setEntry, if_pos h] at hb
      rcases List.mem_cons.mp hb with heq | hb
      · exact ⟨kv, List.mem_cons_self kv acc, by rw [heq]⟩
      · rcases ih hb with ⟨b0, hb0, hkey⟩
        exact ⟨b0, List.mem_cons_of_mem kv hb0, hkey⟩
    · rw [setEntry, if_neg h] at hb
      rcases List.mem_cons.mp hb with heq | hb
      · exact ⟨kv, List.mem_cons_self kv acc, by rw [heq]⟩
      · rcases ih hb with ⟨b0, hb0, hkey⟩
        exact ⟨b0, List.mem_cons_of_mem kv hb0, hkey⟩

theorem entriesOK_setEntry (acc : List (String × ClientConversation))
    (k : String) (c : ClientConversation) (hok : EntriesOK acc)
    (hid : c.id = k) : EntriesOK (setEntry acc k c) := by
  induction acc with
  | nil => exact ⟨List.Pairwise.nil, by intro kv hkv; cases hkv⟩
  | cons kv acc ih =>
    have hpw := List.pairwise_cons.mp hok.1
    have hids := hok.2
    have htail : EntriesOK acc :=
      ⟨hpw.2, fun kv2 h2 => hids kv2 (List.mem_cons_of_mem kv h2)⟩
    have ihtail := ih htail
    by_cases h : kv.1 = k
    · rw [setEntry, if_pos h]
      constructor
      · rw [List.pairwise_cons]
        refine ⟨?_, ihtail.1⟩
        intro b hb
        rcases mem_setEntry hb with ⟨b0, hb0, hkey⟩
        rw [hkey]
        exact hpw.1 b0 hb0
      · intro kv2 h2
        rcases List.mem_cons.mp h2 with heq | h2
        · rw [heq]
          show c.id = kv.1
          rw [hid, h]
        · exact ihtail.2 kv2 h2
    · rw [setEntry, if_neg h]
      constructor
      · rw [List.pairwise_cons]
        refine ⟨?_, ihtail.1⟩
        intro b hb
        rcases mem_setEntry hb with ⟨b0, hb0, hkey⟩
        rw [hkey]
        exact hpw.1 b0 hb0
      · intro kv2 h2
        rcases List.mem_cons.mp h2 with heq | h2
        · rw [heq]
          exact hids kv (List.mem_cons_self kv acc)
        · exact ihtail.2 kv2 h2

theorem lookupEntry_eq_none_iff (acc : List (String × ClientConversation))
    (k : String) : lookupEntry acc k = none ↔ ∀ kv ∈ acc, kv.1 ≠ k := by
  induction acc with
  | nil => simp [lookupEntry]
  | cons kv acc ih =>
    by_cases h : kv.1 = k
    · simp [lookupEntry, h]
    · simp [lookupEntry, h, ih]

theorem lookupEntry_some_mem {acc : List (String × ClientConversation)}
    {k : String} {c : ClientConversation}
    (h : lookupEntry acc k = some c) : ∃ kv ∈ acc, kv.1 = k ∧ kv.2 = c := by
  induction acc with
  | nil => cases h
  | cons kv acc ih =>
    by_cases hk : kv.1 = k
    · rw [lookupEntry, if_pos hk] at h
      exact ⟨kv, List.mem_cons_self kv acc, hk, Option.some.inj h⟩
    · rw [lookupEntry, if_neg hk] at h
      rcases ih h with ⟨kv2, h2, hkey, hval⟩
      exact ⟨kv2, List.mem_cons_of_mem kv h2, hkey, hval⟩

theorem entriesOK_conversationStep
    (acc : List (String × ClientConversation)) (m : CMessage)
    (hok : EntriesOK acc) : EntriesOK (conversationStep acc m) := by
  unfold conversationStep
  rcases hl : lookupEntry acc (convKey m) with _ | c
  · constructor
    · rw [List.pairwise_append]
      refine ⟨hok.1, List.pairwise_singleton _ _, ?_⟩
      intro a ha b hb
      rcases List.mem_singleton.mp hb with rfl
      exact (lookupEntry_eq_none_iff acc (convKey m)).mp hl a ha
    · intro kv hkv
      rcases List.mem_append.mp hkv with h | h
      · exact hok.2 kv h
      · rcases List.mem_singleton.mp h with rfl
        rfl
  · apply entriesOK_setEntry acc (convKey m) _ hok
    rcases lookupEntry_some_mem hl with ⟨kv, hkvmem, hkey, hval⟩
    rw [updateSummary_id, ← hval, hok.2 kv hkvmem, hkey]

theorem entriesOK_foldl (ms : List CMessage) :
    ∀ acc, EntriesOK acc → EntriesOK (ms.foldl conversationStep acc) := by
  induction ms with
  | nil =>
    intro acc h
    exact h
  | cons m rest ih =>
    intro acc h
    exact ih (conversationStep acc m) (entriesOK_conversationStep acc m h)

theorem lookupEntry_of_mem {acc : List (String × ClientConversation)}
    {kv : String × ClientConversation}
    (hpw : List.Pairwise (fun a b => a.1 ≠ b.1) acc) (hkv : kv ∈ acc) :
    lookupEntry acc kv.1 = some kv.2 := by
  induction acc with
  | nil => cases hkv
  | cons kv0 acc ih =>
    have hpw2 := List.pairwise_cons.mp hpw
    rcases List.mem_cons.mp hkv with rfl | h
    · rw [lookupEntry, if_pos rfl]
    · have hne : kv0.1 ≠ kv.1 := hpw2.1 kv h
      rw [lookupEntry, if_neg hne]
      exact ih hpw2.2 h

/-- Claim C10: every summary the client derivation produces carries the
content and time of the *first* message, in input order, among those of its
key group attaining the group's maximal timestamp — the strict comparison
means later messages with an equal timestamp never replace it. -/
theorem derived_summary_keeps_first_of_max (w : String) (ms : List CMessage)
    (c : ClientConversation)
    (hc : c ∈ generateConversationsFromMessages w ms) :
    ∃ pre x post,
      ms.filter (fun m => convKey m == c.id) = pre ++ x :: post ∧
      c.last_message = x.content ∧ c.last_message_time = x.timestamp ∧
      (∀ y ∈ pre, y.timestamp < x.timestamp) ∧
      (∀ y ∈ ms.filter (fun m => convKey m == c.id),
        y.timestamp ≤ x.timestamp) := by
  have hc2 : c ∈ List.insertionSort recencyGE
      (((ms.foldl conversationStep []).map (fun kv => kv.2)).filter
        (fun c => decide (toLowerStr w ∈ c.participants))) := hc
  have hmem0 : c ∈ ((ms.foldl conversationStep []).map (fun kv => kv.2)).filter
      (fun c => decide (toLowerStr w ∈ c.participants)) :=
    (List.perm_insertionSort recencyGE _).mem_iff.mp hc2
  have hmem1 : c ∈ (ms.foldl conversationStep []).map (fun kv => kv.2) :=
    List.mem_of_mem_filter hmem0
  rcases List.mem_map.mp hmem1 with ⟨kv, hkvmem, hkv2⟩
  have hok : EntriesOK (ms.foldl conversationStep []) :=
    entriesOK_foldl ms []
      ⟨List.Pairwise.nil, by intro kv2 h2; cases h2⟩
  have hlook : lookupEntry (ms.foldl conversationStep []) kv.1 = some kv.2 :=
    lookupEntry_of_mem hok.1 hkvmem
  have hid : kv.2.id = kv.1 := hok.2 kv hkvmem
  have hfold := lookupEntry_foldl ms [] kv.1
  rw [hlook] at hfold
  have hgroup : (ms.filter (fun m => convKey m == kv.1)).foldl entryFold none
      = some kv.2 := hfold.symm
  have hsum := entryFold_none_summary _ _ hgroup
  have hcid : c.id = kv.1 := by
    rw [← hkv2, hid]
  rw [← hkv2, hid]
  exact hsum

def wMsgFirst : CMessage :=
  ⟨"w1", "0xa", "0xb", "first", 10, "sent", "gun", false⟩

def wMsgSecond : CMessage :=
  ⟨"w2", "0xb", "0xa", "second", 10, "sent", "gun", false⟩

def wSummary : ClientConversation :=
  ⟨"0xa-0xb", ["0xa", "0xb"], "first", 10, false⟩

/-- Witness for C10: two messages of the same pair share the maximal
timestamp 10; the derived summary keeps the first one's content. -/
theorem derived_summary_keeps_first_of_max_witness :
    ∃ pre x post,
      [wMsgFirst, wMsgSecond].filter
        (fun m => convKey m == wSummary.id) = pre ++ x :: post ∧
      wSummary.last_message = x.content ∧
      wSummary.last_message_time = x.timestamp ∧
      (∀ y ∈ pre, y.timestamp < x.timestamp) ∧
      (∀ y ∈ [wMsgFirst, wMsgSecond].filter
        (fun m => convKey m == wSummary.id), y.timestamp ≤ x.timestamp) :=
  derived_summary_keeps_first_of_max "0xa" [wMsgFirst, wMsgSecond] wSummary
    (by decide)

end KrakenMessaging
